import Mathlib

/-!
Shallow embedding of `src/raytracer.py` (a small Blinn-Phong ray tracer).

Python floats are idealised as real numbers; `x ** 0.5` on a nonnegative
float becomes `Real.sqrt`.  Python code that can raise an exception
(`ZeroDivisionError`, `IndexError`, `UnboundLocalError`) is embedded as a
function into `Option`, with `none` standing for the raised exception.
-/

namespace Raytracer

noncomputable section

/-- Embedding of the source class `Vector` (a three element vector). -/
structure Vector where
  x : ℝ
  y : ℝ
  z : ℝ

namespace Vector

/-- Source `Vector.__add__`: componentwise addition. -/
instance : Add Vector := ⟨fun v w => ⟨v.x + w.x, v.y + w.y, v.z + w.z⟩⟩

/-- Source `Vector.__sub__`: componentwise subtraction. -/
instance : Sub Vector := ⟨fun v w => ⟨v.x - w.x, v.y - w.y, v.z - w.z⟩⟩

/-- Source `Vector.__mul__` / `__rmul__` with a scalar argument. -/
instance : SMul ℝ Vector := ⟨fun s v => ⟨s * v.x, s * v.y, s * v.z⟩⟩

theorem add_def (v w : Vector) : v + w = ⟨v.x + w.x, v.y + w.y, v.z + w.z⟩ := rfl

theorem sub_def (v w : Vector) : v - w = ⟨v.x - w.x, v.y - w.y, v.z - w.z⟩ := rfl

theorem smul_def (s : ℝ) (v : Vector) : s • v = ⟨s * v.x, s * v.y, s * v.z⟩ := rfl

/-- Source `Vector.dot` / `__matmul__`: the euclidean inner product. -/
def dot (v w : Vector) : ℝ := v.x * w.x + v.y * w.y + v.z * w.z

/-- Source `Vector.squared_norm`: `np.dot(self.xyz, self.xyz)`. -/
def squared_norm (v : Vector) : ℝ := v.dot v

/-- Source `Vector.norm`: `np.linalg.norm`, the euclidean norm. -/
def norm (v : Vector) : ℝ := Real.sqrt v.squared_norm

/-- Source `Vector.__truediv__`: componentwise division by a scalar. -/
def div (v : Vector) (s : ℝ) : Vector := ⟨v.x / s, v.y / s, v.z / s⟩

/-- Source `Vector.normalize`: `self / self.norm()`. -/
def normalize (v : Vector) : Vector := v.div v.norm

end Vector

/-- Source class `Point` is an alias for `Vector` (same representation). -/
abbrev Point := Vector

/-- Embedding of the source class `Color`. -/
structure Color where
  r : ℝ
  g : ℝ
  b : ℝ

namespace Color

/-- Source `Color.__add__`: componentwise addition. -/
instance : Add Color := ⟨fun c d => ⟨c.r + d.r, c.g + d.g, c.b + d.b⟩⟩

/-- Source `Color.__mul__` / `__rmul__` with a scalar. -/
instance : SMul ℝ Color := ⟨fun s c => ⟨s * c.r, s * c.g, s * c.b⟩⟩

theorem color_add_def (c d : Color) : c + d = ⟨c.r + d.r, c.g + d.g, c.b + d.b⟩ := rfl

theorem color_smul_def (s : ℝ) (c : Color) : s • c = ⟨s * c.r, s * c.g, s * c.b⟩ := rfl

/-- Source `Color.from_hex`: the three hex byte pairs of `#RRGGBB` are
parsed (`int(hexcolor[1:3], 16)` and so on, boundary string handling we model
by its numeric result) and each is divided by 255. -/
def from_hex (r g b : ℕ) : Color := ⟨(r : ℝ) / 255, (g : ℝ) / 255, (b : ℝ) / 255⟩

end Color

/-- Source module constant `WHITE = Color.from_hex('#FFFFFF')`. -/
def WHITE : Color := Color.from_hex 255 255 255

/-- Source module constant `BLACK = Color.from_hex('#000000')`. -/
def BLACK : Color := Color.from_hex 0 0 0

/-- Embedding of the source class `Ray`. -/
structure Ray where
  origin : Point
  direction : Vector

namespace Ray

/-- Source `Ray.point_at`: `origin + t*direction`. -/
def point_at (ray : Ray) (t : ℝ) : Point := ray.origin + t • ray.direction

/-- Source `Ray.from_points`: origin `tail`, direction `head - tail`
(unnormalized). -/
def from_points (tail head : Point) : Ray := ⟨tail, head - tail⟩

/-- Source `Ray.bg_color`: `t = self.direction.normalize().y` and
`t*WHITE + (1-t)*BLACK`. -/
def bg_color (ray : Ray) : Color :=
  let t := ray.direction.normalize.y
  t • WHITE + (1 - t) • BLACK

end Ray

/-- Embedding of the source class `Material`. -/
structure Material where
  color : Color
  ambient : ℝ
  diffuse : ℝ
  specular : ℝ
  specular_k : ℕ

/-- Embedding of the source class `Light`. -/
structure Light where
  position : Point
  color : Color

/-- Embedding of the source class `Sphere`. -/
structure Sphere where
  center : Point
  radius : ℝ
  material : Material

namespace Sphere

/-- Source `Sphere.intersect`: quadratic ray-sphere intersection.  Returns
the near root `(-b - sqrt d) / (2a)` when the discriminant `d` and that root
are both nonnegative, `none` otherwise.  (Python computes `t` only when
`d >= 0` thanks to short-circuiting `and`; since in Lean `Real.sqrt` of a
negative number is `0`, guarding the whole conjunction is equivalent.) -/
def intersect (s : Sphere) (ray : Ray) : Option ℝ :=
  let center_to_origin := ray.origin - s.center
  let a := ray.direction.squared_norm
  let b := 2 * center_to_origin.dot ray.direction
  let c := center_to_origin.squared_norm - s.radius ^ 2
  let d := b ^ 2 - 4 * a * c
  let t := (-b - Real.sqrt d) / (2 * a)
  if 0 ≤ d ∧ 0 ≤ t then some t else none

/-- Source `Sphere.normal_at`: `(point_on_sphere - self.center).normalize()`. -/
def normal_at (s : Sphere) (point_on_sphere : Point) : Vector :=
  (point_on_sphere - s.center).normalize

end Sphere

/-- Embedding of the source class `Image`: a `width x height` grid of
optional colors, row-major (`pixels[y][x]`), each cell initially `None`. -/
structure Image where
  width : ℕ
  height : ℕ
  pixels : List (List (Option Color))

namespace Image

/-- Source `Image.__init__`: `[[None for x in range(width)] for y in range(height)]`. -/
def init (width height : ℕ) : Image :=
  ⟨width, height, List.replicate height (List.replicate width none)⟩

end Image

/-- Python list indexing: `xs[i]` yields element `i` for `0 ≤ i < len(xs)`,
wraps to element `len(xs) + i` for `-len(xs) ≤ i < 0`, and raises
`IndexError` (here `none`) otherwise. -/
def pyIndex (n : ℕ) (i : ℤ) : Option ℕ :=
  if 0 ≤ i ∧ i < (n : ℤ) then some i.toNat
  else if -(n : ℤ) ≤ i ∧ i < 0 then some ((n : ℤ) + i).toNat
  else none

/-- Python list element assignment `xs[i] = v` at an already resolved
nonnegative position. -/
def listSet {α : Type} (xs : List α) (i : ℕ) (v : α) : List α := xs.set i v

namespace Image

/-- Source `Image.set_pixel`: `self.pixels[y][x] = color`, with Python's
indexing semantics (negative indices wrap, a fully out-of-range index raises
`IndexError`, modelled as `none`). -/
def set_pixel (img : Image) (x y : ℤ) (color : Color) : Option Image :=
  match pyIndex img.pixels.length y with
  | none => none
  | some yi =>
    match img.pixels.get? yi with
    | none => none
    | some row =>
      match pyIndex row.length x with
      | none => none
      | some xi =>
        some ⟨img.width, img.height,
              listSet img.pixels yi (listSet row xi (some color))⟩

end Image

/-- Python's builtin `round` on an exact real value: round half to even
(banker's rounding). -/
def pyround (x : ℝ) : ℤ :=
  if Int.fract x < 1 / 2 then ⌊x⌋
  else if 1 / 2 < Int.fract x then ⌊x⌋ + 1
  else if Even ⌊x⌋ then ⌊x⌋ else ⌊x⌋ + 1

/-- Source inner function `to_byte` of `Image.write_ppm`:
`int(max(min(round(val * 255), 255), 0))` for each channel. -/
def Image.to_byte (color : Color) : List ℤ :=
  [color.r, color.g, color.b].map (fun val => max (min (pyround (val * 255)) 255) 0)

/-- Embedding of the source class `Scene`: camera point, object list and
light list (built by `set_camera`, `add_objects`, `add_lights`). -/
structure Scene where
  camera : Point
  objects : List Sphere
  lights : List Light

namespace Scene

/-- Loop body of the source `Scene.find_nearest`: keep the incumbent unless
this object intersects and is strictly nearer (`dist < dist_min`), or there
is no incumbent yet. -/
def nearestStep (ray : Ray) (acc : Option (ℝ × Sphere)) (obj : Sphere) :
    Option (ℝ × Sphere) :=
  match obj.intersect ray with
  | none => acc
  | some dist =>
    match acc with
    | none => some (dist, obj)
    | some (dist_min, object_hit) =>
      if dist < dist_min then some (dist, obj) else some (dist_min, object_hit)

/-- Source `Scene.find_nearest`: linear scan over `self.objects` tracking
`(dist_min, object_hit)`, then `point_hit = ray.point_at(dist_min)`.
The Python `(None, None)` result is modelled as `none`. -/
def find_nearest (s : Scene) (ray : Ray) : Option (Point × Sphere) :=
  (s.objects.foldl (nearestStep ray) none).map
    (fun p => (ray.point_at p.1, p.2))

/-- Per-light body of the loop in the source `Scene.color_at`: the diffuse
term `material.color * material.diffuse * max(0, normal @ to_light.direction)`
plus the specular term
`light.color * material.specular * max(0, normal @ half_vector) ** material.specular_k`,
where `to_light = Ray.from_points(point_hit, light.position)` and
`half_vector = (to_light.direction + to_cam).normalize()`. -/
def lightContribution (camera point_hit : Point) (normal : Vector)
    (material : Material) (light : Light) : Color :=
  let to_cam := camera - point_hit
  let to_light := Ray.from_points point_hit light.position
  let half_vector := (to_light.direction + to_cam).normalize
  max 0 (normal.dot to_light.direction) • material.diffuse • material.color
    + max 0 (normal.dot half_vector) ^ material.specular_k • material.specular • light.color

/-- Source `Scene.color_at`: the loop assigns `color = <diffuse term>` afresh
on every iteration (it accumulates only the specular term of the same light
via `color +=`), so after the loop `color` holds the contribution of the
*last* light alone; with an empty light list `color` was never assigned and
`return color` raises `UnboundLocalError`, modelled as `none`. -/
def color_at (s : Scene) (_ray : Ray) (point_hit : Point) (object_hit : Sphere) :
    Option Color :=
  let normal := object_hit.normal_at point_hit
  let material := object_hit.material
  s.lights.foldl
    (fun _ light => some (lightContribution s.camera point_hit normal material light))
    none

/-- Source `Scene.trace`: nearest hit then shading, background color when
nothing is hit.  A shading fault propagates. -/
def trace (s : Scene) (ray : Ray) : Option Color :=
  match s.find_nearest ray with
  | some (point_hit, object_hit) => s.color_at ray point_hit object_hit
  | none => some ray.bg_color

/-- Source `Scene.render`.  Python raises `ZeroDivisionError` (modelled as
`none`): at `ratio = width / height` when `height = 0`, at
`x_step = (x1-x0) / (width-1)` when `width = 1`, and at
`y_step = (y1-y0) / (height-1)` when `height = 1`.  Otherwise it walks the
pixel grid row by row, traces a ray through each plane point `(x, y, 0)` and
stores the color with `set_pixel`. -/
def render (s : Scene) (width height : ℕ) : Option Image :=
  if height = 0 then none
  else if width = 1 then none
  else if height = 1 then none
  else
    let aspect : ℝ := (width : ℝ) / (height : ℝ)
    let x0 : ℝ := -1
    let x1 : ℝ := 1
    let x_step := (x1 - x0) / ((width : ℝ) - 1)
    let y0 : ℝ := -1 / aspect
    let y1 : ℝ := 1 / aspect
    let y_step := (y1 - y0) / ((height : ℝ) - 1)
    (List.range height).foldl
      (fun acc (j : ℕ) =>
        acc.bind (fun image =>
          (List.range width).foldl
            (fun acc2 (i : ℕ) =>
              acc2.bind (fun img =>
                let y := y0 + (j : ℝ) * y_step
                let x := x0 + (i : ℝ) * x_step
                let ray := Ray.from_points s.camera ⟨x, y, 0⟩
                (s.trace ray).bind (fun c => img.set_pixel (i : ℤ) (j : ℤ) c)))
            (some image)))
      (some (Image.init width height))

end Scene

/-- Helper: `Real.sqrt x = y` once `y ^ 2 = x` and `0 ≤ y`. -/
theorem sqrt_of_sq {x y : ℝ} (hy : 0 ≤ y) (h : y ^ 2 = x) : Real.sqrt x = y := by
  subst h
  exact Real.sqrt_sq hy

/-- C3: for a ray with a nondegenerate direction (Python raises
`ZeroDivisionError` on a zero direction, which the spec excludes as
degenerate geometry), `Sphere.intersect` returns no hit exactly when the
discriminant is negative or the near root is negative, and otherwise
returns the near root `(-b - sqrt d) / (2a)` - never the far root. -/
theorem intersect_none_iff_neg_disc_or_neg_root (s : Sphere) (ray : Ray)
    (a b c d t : ℝ)
    (hA : a = ray.direction.squared_norm)
    (hB : b = 2 * (ray.origin - s.center).dot ray.direction)
    (hC : c = (ray.origin - s.center).squared_norm - s.radius ^ 2)
    (hD : d = b ^ 2 - 4 * a * c)
    (hT : t = (-b - Real.sqrt d) / (2 * a))
    (ha : a ≠ 0) :
    (s.intersect ray = none ↔ d < 0 ∨ t < 0) ∧
      (0 ≤ d → 0 ≤ t → s.intersect ray = some t) := by
  subst hA hB hC hD hT
  unfold Sphere.intersect
  dsimp only
  split_ifs with h
  · refine ⟨?_, fun _ _ => rfl⟩
    simp only [reduceCtorEq, false_iff]
    push_neg
    exact ⟨h.1, h.2⟩
  · rw [not_and_or, not_le, not_le] at h
    refine ⟨⟨fun _ => h, fun _ => rfl⟩, ?_⟩
    intro hd ht
    rcases h with h | h
    · exact absurd hd (not_le.mpr h)
    · exact absurd ht (not_le.mpr h)

/-- C3 witness: a unit ray from the origin straight at a sphere of radius 1
centered at `(0,0,5)`: discriminant `4`, near root `4`, and the hit is
reported. -/
theorem intersect_none_iff_neg_disc_or_neg_root_witness :
    ((Sphere.mk ⟨0, 0, 5⟩ 1 ⟨⟨1, 1, 1⟩, 0.05, 1, 1, 50⟩).intersect
        ⟨⟨0, 0, 0⟩, ⟨0, 0, 1⟩⟩ = none ↔ (4 : ℝ) < 0 ∨ (4 : ℝ) < 0) ∧
      ((0 : ℝ) ≤ 4 → (0 : ℝ) ≤ 4 →
        (Sphere.mk ⟨0, 0, 5⟩ 1 ⟨⟨1, 1, 1⟩, 0.05, 1, 1, 50⟩).intersect
          ⟨⟨0, 0, 0⟩, ⟨0, 0, 1⟩⟩ = some 4) :=
  intersect_none_iff_neg_disc_or_neg_root
    (Sphere.mk ⟨0, 0, 5⟩ 1 ⟨⟨1, 1, 1⟩, 0.05, 1, 1, 50⟩) ⟨⟨0, 0, 0⟩, ⟨0, 0, 1⟩⟩
    1 (-10) 24 4 4
    (by norm_num [Vector.squared_norm, Vector.dot])
    (by norm_num [Vector.sub_def, Vector.dot])
    (by norm_num [Vector.sub_def, Vector.squared_norm, Vector.dot])
    (by norm_num)
    (by rw [sqrt_of_sq (by norm_num : (0:ℝ) ≤ 2) (by norm_num)]; norm_num)
    (by norm_num)

/-- Helper: a squared norm is a sum of squares, hence nonnegative. -/
theorem Vector.squared_norm_nonneg (v : Vector) : 0 ≤ v.squared_norm := by
  simp only [Vector.squared_norm, Vector.dot]
  have hx := mul_self_nonneg v.x
  have hy := mul_self_nonneg v.y
  have hz := mul_self_nonneg v.z
  linarith

/-- Helper: `norm ^ 2` recovers the squared norm. -/
theorem Vector.norm_sq (v : Vector) : v.norm ^ 2 = v.squared_norm :=
  Real.sq_sqrt v.squared_norm_nonneg

/-- Helper: squared norm of a componentwise division by a scalar. -/
theorem Vector.div_squared_norm (v : Vector) (sc : ℝ) :
    (v.div sc).squared_norm = v.squared_norm / sc ^ 2 := by
  simp only [Vector.div, Vector.squared_norm, Vector.dot]
  ring

/-- Helper: dot product with a componentwise division by a scalar. -/
theorem Vector.dot_div (v w : Vector) (sc : ℝ) :
    v.dot (w.div sc) = v.dot w / sc := by
  simp only [Vector.div, Vector.dot]
  ring

/-- Helper: dot product of a difference with its opposite. -/
theorem Vector.dot_sub_swap (v w : Vector) :
    (v - w).dot (w - v) = -(v - w).squared_norm := by
  simp only [Vector.sub_def, Vector.dot, Vector.squared_norm]
  ring

/-- Helper: squared norm is invariant under swapping the difference. -/
theorem Vector.squared_norm_sub_swap (v w : Vector) :
    (w - v).squared_norm = (v - w).squared_norm := by
  simp only [Vector.sub_def, Vector.dot, Vector.squared_norm]
  ring

/-- Helper: `Sphere.intersect` evaluated through its quadratic coefficients. -/
theorem intersect_eval (s : Sphere) (ray : Ray) (a b c : ℝ)
    (hA : ray.direction.squared_norm = a)
    (hB : 2 * (ray.origin - s.center).dot ray.direction = b)
    (hC : (ray.origin - s.center).squared_norm - s.radius ^ 2 = c) :
    s.intersect ray =
      if 0 ≤ b ^ 2 - 4 * a * c ∧
          0 ≤ (-b - Real.sqrt (b ^ 2 - 4 * a * c)) / (2 * a) then
        some ((-b - Real.sqrt (b ^ 2 - 4 * a * c)) / (2 * a))
      else none := by
  subst hA hB hC
  rfl

/-- C9: a ray whose origin lies outside the sphere at distance `d > r` from
the center and whose direction is the unit vector toward the center hits at
`t = d - r`. -/
theorem intersect_aimed_at_center (s : Sphere) (O : Point)
    (hr : 0 < s.radius) (hd : s.radius < (O - s.center).norm) :
    s.intersect ⟨O, (s.center - O).normalize⟩ =
      some ((O - s.center).norm - s.radius) := by
  set dst := (O - s.center).norm with hdst
  have hdpos : 0 < dst := hr.trans hd
  have hsq : dst ^ 2 = (O - s.center).squared_norm := Vector.norm_sq _
  have hnormCO : (s.center - O).norm = dst := by
    rw [Vector.norm, Vector.squared_norm_sub_swap, hdst, Vector.norm]
  have hA : ((s.center - O).normalize).squared_norm = 1 := by
    rw [Vector.normalize, Vector.div_squared_norm, hnormCO,
      Vector.squared_norm_sub_swap, ← hsq]
    exact div_self (pow_pos hdpos 2).ne'
  have hB : 2 * (O - s.center).dot ((s.center - O).normalize) = -(2 * dst) := by
    rw [Vector.normalize, Vector.dot_div, hnormCO, Vector.dot_sub_swap, ← hsq]
    field_simp
    ring
  have hC : (O - s.center).squared_norm - s.radius ^ 2 =
      dst ^ 2 - s.radius ^ 2 := by rw [hsq]
  rw [intersect_eval _ _ _ _ _ hA hB hC]
  have hdisc : (-(2 * dst)) ^ 2 - 4 * 1 * (dst ^ 2 - s.radius ^ 2) =
      (2 * s.radius) ^ 2 := by ring
  rw [hdisc, sqrt_of_sq (by positivity) rfl]
  have ht : (-(-(2 * dst)) - 2 * s.radius) / (2 * 1) = dst - s.radius := by ring
  rw [ht, if_pos ⟨by positivity, by linarith⟩]

/-- C9 witness: camera at the origin aimed at a unit sphere centered at
`(0,0,5)`; the distance to the center is `5` and the hit is at `t = 4`. -/
theorem intersect_aimed_at_center_witness :
    ((⟨0, 0, 0⟩ - ⟨0, 0, 5⟩ : Vector).norm = 5) ∧
      (Sphere.mk ⟨0, 0, 5⟩ 1 ⟨⟨1, 1, 1⟩, 0.05, 1, 1, 50⟩).intersect
        ⟨⟨0, 0, 0⟩, ((⟨0, 0, 5⟩ : Vector) - ⟨0, 0, 0⟩).normalize⟩ =
        some ((⟨0, 0, 0⟩ - ⟨0, 0, 5⟩ : Vector).norm - 1) := by
  have hnorm : ((⟨0, 0, 0⟩ - ⟨0, 0, 5⟩ : Vector)).norm = 5 := by
    rw [Vector.norm]
    exact sqrt_of_sq (by norm_num)
      (by norm_num [Vector.sub_def, Vector.squared_norm, Vector.dot])
  exact ⟨hnorm,
    intersect_aimed_at_center (Sphere.mk ⟨0, 0, 5⟩ 1 ⟨⟨1, 1, 1⟩, 0.05, 1, 1, 50⟩)
      ⟨0, 0, 0⟩ (by norm_num) (by rw [hnorm]; norm_num)⟩

/-- C6 counterexample: a ray pointing straight down, direction `(0,-1,0)`,
has `t = -1`, so `bg_color` returns `Color([-1,-1,-1])`, not pure BLACK
(`Color([0,0,0])`) as the claim states. -/
theorem bg_color_down_is_not_black :
    Ray.bg_color ⟨⟨0, 0, 0⟩, ⟨0, -1, 0⟩⟩ = Color.mk (-1) (-1) (-1) ∧
      Ray.bg_color ⟨⟨0, 0, 0⟩, ⟨0, -1, 0⟩⟩ ≠ BLACK := by
  have hnorm : (Vector.mk 0 (-1) 0).norm = 1 := by
    rw [Vector.norm]
    exact sqrt_of_sq (by norm_num)
      (by norm_num [Vector.squared_norm, Vector.dot])
  have heval : Ray.bg_color ⟨⟨0, 0, 0⟩, ⟨0, -1, 0⟩⟩ = Color.mk (-1) (-1) (-1) := by
    simp only [Ray.bg_color, Vector.normalize, Vector.div, hnorm, WHITE, BLACK,
      Color.from_hex, Color.color_smul_def, Color.color_add_def]
    norm_num
  refine ⟨heval, ?_⟩
  rw [heval]
  simp only [BLACK, Color.from_hex, ne_eq, Color.mk.injEq]
  norm_num

/-- C6 amended: `bg_color` returns `t * WHITE + (1-t) * BLACK` with `t` the
vertical component of the normalized direction; a ray with direction
`(0,1,0)` returns pure WHITE, while a ray with direction `(0,-1,0)` returns
`Color([-1,-1,-1])` (clamped to black only at byte-conversion time). -/
theorem bg_color_vertical_gradient :
    (∀ ray : Ray,
        ray.bg_color =
          (ray.direction.y / ray.direction.norm) • WHITE +
            (1 - ray.direction.y / ray.direction.norm) • BLACK) ∧
      (∀ origin : Point, Ray.bg_color ⟨origin, ⟨0, 1, 0⟩⟩ = WHITE) ∧
      (∀ origin : Point,
        Ray.bg_color ⟨origin, ⟨0, -1, 0⟩⟩ = Color.mk (-1) (-1) (-1)) := by
  have hup : (Vector.mk 0 1 0).norm = 1 := by
    rw [Vector.norm]
    exact sqrt_of_sq (by norm_num) (by norm_num [Vector.squared_norm, Vector.dot])
  have hdown : (Vector.mk 0 (-1) 0).norm = 1 := by
    rw [Vector.norm]
    exact sqrt_of_sq (by norm_num) (by norm_num [Vector.squared_norm, Vector.dot])
  refine ⟨fun ray => rfl, fun origin => ?_, fun origin => ?_⟩
  · simp only [Ray.bg_color, Vector.normalize, Vector.div, hup, WHITE, BLACK,
      Color.from_hex, Color.color_smul_def, Color.color_add_def]
    norm_num
  · simp only [Ray.bg_color, Vector.normalize, Vector.div, hdown, WHITE, BLACK,
      Color.from_hex, Color.color_smul_def, Color.color_add_def]
    norm_num

/-- Helper: evaluate an integer floor from its bounding inequalities. -/
theorem floor_eval {x : ℝ} {n : ℤ} (h1 : (n : ℝ) ≤ x) (h2 : x < n + 1) :
    ⌊x⌋ = n :=
  Int.floor_eq_iff.mpr ⟨h1, h2⟩

/-- C7: byte conversion maps each channel to Python `round(channel * 255)`
clamped to `[0, 255]` (the `min` with 255 applied before the `max` with 0,
as in the source), and in particular `Color([1.5, -0.2, 0.5])` converts to
`(255, 0, 128)`. -/
theorem to_byte_rounds_and_clamps :
    (∀ color : Color,
        Image.to_byte color =
          [color.r, color.g, color.b].map
            (fun val => max (min (pyround (val * 255)) 255) 0)) ∧
      Image.to_byte ⟨1.5, -0.2, 0.5⟩ = [255, 0, 128] := by
  refine ⟨fun color => rfl, ?_⟩
  have h1 : pyround ((1.5 : ℝ) * 255) = 382 := by
    have hf : ⌊(1.5 : ℝ) * 255⌋ = 382 := floor_eval (by norm_num) (by norm_num)
    unfold pyround
    rw [Int.fract, hf]
    norm_num [Int.even_iff]
  have h2 : pyround ((-0.2 : ℝ) * 255) = -51 := by
    have hf : ⌊(-0.2 : ℝ) * 255⌋ = -51 := floor_eval (by norm_num) (by norm_num)
    unfold pyround
    rw [Int.fract, hf]
    norm_num
  have h3 : pyround ((0.5 : ℝ) * 255) = 128 := by
    have hf : ⌊(0.5 : ℝ) * 255⌋ = 127 := floor_eval (by norm_num) (by norm_num)
    unfold pyround
    rw [Int.fract, hf]
    norm_num [Int.even_iff]
  simp only [Image.to_byte, List.map, h1, h2, h3]
  norm_num

/-- Helper: norm of a vector along the z axis with nonnegative component. -/
theorem norm_z {c : ℝ} (hc : 0 ≤ c) : (Vector.mk 0 0 c).norm = c := by
  rw [Vector.norm]
  exact sqrt_of_sq hc (by simp only [Vector.squared_norm, Vector.dot]; ring)

/-- Helper: normalizing a vector along the positive z axis gives `(0,0,1)`. -/
theorem normalize_z {c : ℝ} (hc : 0 < c) :
    (Vector.mk 0 0 c).normalize = ⟨0, 0, 1⟩ := by
  rw [Vector.normalize, norm_z hc.le, Vector.div]
  simp only [Vector.mk.injEq]
  refine ⟨by norm_num, by norm_num, div_self hc.ne'⟩

/-- Test fixture: a unit sphere centered at `(0,0,-1)` with a red diffuse
material, touching the origin. -/
def testSphere : Sphere := ⟨⟨0, 0, -1⟩, 1, ⟨⟨1, 0, 0⟩, 0.05, 1, 1, 50⟩⟩

/-- Test fixture: an arbitrary camera ray (the `ray` argument of `color_at`
is never read by the source). -/
def testRay : Ray := ⟨⟨0, 0, 2⟩, ⟨0, 0, -1⟩⟩

/-- Helper: the normal of `testSphere` at the origin points along `+z`. -/
theorem testSphere_normal_at_origin :
    testSphere.normal_at ⟨0, 0, 0⟩ = ⟨0, 0, 1⟩ := by
  have h : (Vector.mk 0 0 0 - Vector.mk 0 0 (-1)) = Vector.mk 0 0 1 := by
    simp only [Vector.sub_def, Vector.mk.injEq]
    norm_num
  unfold Sphere.normal_at testSphere
  rw [h, normalize_z one_pos]

/-- Helper: evaluation of the per-light loop body for a camera at `(0,0,2)`,
hit point at the origin, normal `(0,0,1)` and a light on the positive z
axis at height `zl > 0` with `zl + 2 > 0`: the diffuse dot is the
unnormalized distance `zl` and the half-vector collapses to `(0,0,1)`. -/
theorem lightContribution_on_axis (zl : ℝ) (hzl : 0 < zl) (lc : Color) :
    Scene.lightContribution ⟨0, 0, 2⟩ ⟨0, 0, 0⟩ ⟨0, 0, 1⟩
      (Material.mk ⟨1, 0, 0⟩ 0.05 1 1 50) ⟨⟨0, 0, zl⟩, lc⟩ =
      Color.mk zl 0 0 + lc := by
  unfold Scene.lightContribution
  have h1 : (Vector.mk 0 0 zl - Vector.mk 0 0 0) = Vector.mk 0 0 zl := by
    simp only [Vector.sub_def, Vector.mk.injEq]
    norm_num
  have h2 : (Vector.mk 0 0 2 - Vector.mk 0 0 0) = Vector.mk 0 0 2 := by
    simp only [Vector.sub_def, Vector.mk.injEq]
    norm_num
  have h3 : (Vector.mk 0 0 zl + Vector.mk 0 0 2) = Vector.mk 0 0 (zl + 2) := by
    simp only [Vector.add_def, Vector.mk.injEq]
    norm_num
  simp only [Ray.from_points, h1, h2, h3, normalize_z (by linarith : (0:ℝ) < zl + 2)]
  simp only [Vector.dot, Color.color_smul_def, Color.color_add_def]
  have hmax : max 0 zl = zl := max_eq_right hzl.le
  have hmax1 : max (0 : ℝ) 1 = 1 := by norm_num
  simp only [Color.mk.injEq]
  rw [show (0:ℝ) * 0 + 0 * 0 + 1 * zl = zl by ring,
    show (0:ℝ) * 0 + 0 * 0 + 1 * 1 = 1 by ring, hmax, hmax1]
  norm_num

/-- C10: with an empty light list, `color_at` raises (`color` is assigned
only inside the per-light loop, so `return color` hits an unbound local),
and therefore `trace` raises instead of returning a color whenever the ray
hits an object. -/
theorem color_at_without_lights_faults (s : Scene) (ray : Ray)
    (hl : s.lights = []) :
    (∀ (point_hit : Point) (object_hit : Sphere),
        s.color_at ray point_hit object_hit = none) ∧
      (∀ (point_hit : Point) (object_hit : Sphere),
        s.find_nearest ray = some (point_hit, object_hit) →
          s.trace ray = none) := by
  have hcol : ∀ (point_hit : Point) (object_hit : Sphere),
      s.color_at ray point_hit object_hit = none := by
    intro point_hit object_hit
    unfold Scene.color_at
    rw [hl]
    rfl
  refine ⟨hcol, fun point_hit object_hit hfind => ?_⟩
  unfold Scene.trace
  rw [hfind]
  exact hcol point_hit object_hit

/-- Helper: a head-on intersection used by several witnesses:
`testSphere` is hit by the ray from `(0,0,2)` straight down the z axis at
`t = 2` (distance 3 to the center minus radius 1). -/
theorem testSphere_intersect_eval : testSphere.intersect testRay = some 2 := by
  rw [intersect_eval testSphere testRay 1 (-6) 8
    (by norm_num [testRay, Vector.squared_norm, Vector.dot])
    (by norm_num [testSphere, testRay, Vector.sub_def, Vector.dot])
    (by norm_num [testSphere, testRay, Vector.sub_def, Vector.squared_norm,
      Vector.dot])]
  rw [show (-6 : ℝ) ^ 2 - 4 * 1 * 8 = 2 ^ 2 by norm_num,
    sqrt_of_sq (by norm_num : (0:ℝ) ≤ 2) rfl]
  norm_num

/-- Helper: `find_nearest` on the one-sphere test scene. -/
theorem find_nearest_testSphere (lights : List Light) :
    Scene.find_nearest ⟨⟨0, 0, 2⟩, [testSphere], lights⟩ testRay =
      some (testRay.point_at 2, testSphere) := by
  unfold Scene.find_nearest
  simp only [List.foldl_cons, List.foldl_nil, Scene.nearestStep,
    testSphere_intersect_eval]
  rfl

/-- C10 witness: a scene holding one sphere and no lights, traced along a
ray that hits the sphere, faults. -/
theorem color_at_without_lights_faults_witness :
    (Scene.color_at ⟨⟨0, 0, 2⟩, [testSphere], []⟩ testRay
        (testRay.point_at 2) testSphere = none) ∧
      Scene.trace ⟨⟨0, 0, 2⟩, [testSphere], []⟩ testRay = none :=
  ⟨(color_at_without_lights_faults ⟨⟨0, 0, 2⟩, [testSphere], []⟩ testRay rfl).1
      (testRay.point_at 2) testSphere,
    (color_at_without_lights_faults ⟨⟨0, 0, 2⟩, [testSphere], []⟩ testRay rfl).2
      (testRay.point_at 2) testSphere (find_nearest_testSphere [])⟩

/-- C1: evaluation at the failing input.  With two lights, the loop in
`color_at` reassigns `color = <diffuse>` on the second iteration, so the
first light's contribution `Color(2,1,1)` is discarded: the code returns
only the second light's contribution `Color(3,1,0)` while the claimed sum
of both per-light contributions is `Color(5,2,1)`. -/
theorem color_at_two_lights_drops_first :
    Scene.color_at ⟨⟨0, 0, 2⟩, [testSphere],
        [⟨⟨0, 0, 1⟩, ⟨1, 1, 1⟩⟩, ⟨⟨0, 0, 3⟩, ⟨0, 1, 0⟩⟩]⟩
        testRay ⟨0, 0, 0⟩ testSphere = some ⟨3, 1, 0⟩ ∧
      Scene.lightContribution ⟨0, 0, 2⟩ ⟨0, 0, 0⟩
          (testSphere.normal_at ⟨0, 0, 0⟩) testSphere.material
          ⟨⟨0, 0, 1⟩, ⟨1, 1, 1⟩⟩ +
        Scene.lightContribution ⟨0, 0, 2⟩ ⟨0, 0, 0⟩
          (testSphere.normal_at ⟨0, 0, 0⟩) testSphere.material
          ⟨⟨0, 0, 3⟩, ⟨0, 1, 0⟩⟩ = ⟨5, 2, 1⟩ ∧
      Color.mk 3 1 0 ≠ Color.mk 5 2 1 := by
  have hmat : testSphere.material = ⟨⟨1, 0, 0⟩, 0.05, 1, 1, 50⟩ := rfl
  refine ⟨?_, ?_, ?_⟩
  · unfold Scene.color_at
    simp only [List.foldl_cons, List.foldl_nil]
    rw [testSphere_normal_at_origin, hmat,
      lightContribution_on_axis 3 (by norm_num) ⟨0, 1, 0⟩]
    simp only [Color.color_add_def, Color.mk.injEq]
    norm_num
  · rw [testSphere_normal_at_origin, hmat,
      lightContribution_on_axis 1 one_pos ⟨1, 1, 1⟩,
      lightContribution_on_axis 3 (by norm_num) ⟨0, 1, 0⟩]
    simp only [Color.color_add_def, Color.mk.injEq]
    norm_num
  · simp only [ne_eq, Color.mk.injEq]
    norm_num

/-- Modelled from the spec's words, for comparison with the source
`lightContribution`: the per-light contribution of claim C2, in which the
direction to the light is normalized before the diffuse dot product, and
the half-vector is the normalized sum of the *unit* direction-to-light and
*unit* direction-to-camera vectors. -/
def lightContribution_specClaim (camera point_hit : Point) (normal : Vector)
    (material : Material) (light : Light) : Color :=
  let to_light_unit := (light.position - point_hit).normalize
  let to_cam_unit := (camera - point_hit).normalize
  let half_vector := (to_light_unit + to_cam_unit).normalize
  max 0 (normal.dot to_light_unit) • material.diffuse • material.color
    + max 0 (normal.dot half_vector) ^ material.specular_k •
        material.specular • light.color

/-- C2 counterexample: one light at `(0,0,3)` above a hit point at the
origin (camera at `(0,0,2)`, normal `(0,0,1)`).  The source computes the
diffuse dot against the *unnormalized* direction `(0,0,3)` and returns
`Color(4,1,1)`, while the claimed normalized formula yields `Color(2,1,1)`. -/
theorem color_at_uses_unnormalized_directions :
    Scene.color_at ⟨⟨0, 0, 2⟩, [testSphere], [⟨⟨0, 0, 3⟩, ⟨1, 1, 1⟩⟩]⟩
        testRay ⟨0, 0, 0⟩ testSphere = some ⟨4, 1, 1⟩ ∧
      lightContribution_specClaim ⟨0, 0, 2⟩ ⟨0, 0, 0⟩
        (testSphere.normal_at ⟨0, 0, 0⟩) testSphere.material
        ⟨⟨0, 0, 3⟩, ⟨1, 1, 1⟩⟩ = ⟨2, 1, 1⟩ ∧
      Color.mk 4 1 1 ≠ Color.mk 2 1 1 := by
  have hmat : testSphere.material = ⟨⟨1, 0, 0⟩, 0.05, 1, 1, 50⟩ := rfl
  refine ⟨?_, ?_, ?_⟩
  · unfold Scene.color_at
    simp only [List.foldl_cons, List.foldl_nil]
    rw [testSphere_normal_at_origin, hmat,
      lightContribution_on_axis 3 (by norm_num) ⟨1, 1, 1⟩]
    simp only [Color.color_add_def, Color.mk.injEq]
    norm_num
  · unfold lightContribution_specClaim
    rw [testSphere_normal_at_origin, hmat]
    have h1 : (Vector.mk 0 0 3 - Vector.mk 0 0 0) = Vector.mk 0 0 3 := by
      simp only [Vector.sub_def, Vector.mk.injEq]
      norm_num
    have h2 : (Vector.mk 0 0 2 - Vector.mk 0 0 0) = Vector.mk 0 0 2 := by
      simp only [Vector.sub_def, Vector.mk.injEq]
      norm_num
    simp only [h1, h2, normalize_z (by norm_num : (0:ℝ) < 3),
      normalize_z (by norm_num : (0:ℝ) < 2)]
    have h3 : (Vector.mk 0 0 1 + Vector.mk 0 0 1) = Vector.mk 0 0 2 := by
      simp only [Vector.add_def, Vector.mk.injEq]
      norm_num
    simp only [h3, normalize_z (by norm_num : (0:ℝ) < 2)]
    simp only [Vector.dot, Color.color_smul_def, Color.color_add_def, Color.mk.injEq]
    norm_num
  · simp only [ne_eq, Color.mk.injEq]
    norm_num

/-- C2 amended: the per-light contribution computed by `color_at` (and, the
loop overwriting its accumulator, the value it returns for the last light
of the list) is
`material.color * material.diffuse * max(0, normal . to_light)` plus
`light.color * material.specular * max(0, normal . h) ^ specular_k`, where
`to_light = light.position - point_hit` is left unnormalized and
`h = normalize(to_light + to_cam)` is built from the unnormalized vectors. -/
theorem color_at_per_light_formula (s : Scene) (ray : Ray) (point_hit : Point)
    (object_hit : Sphere) (init : List Light) (light : Light)
    (hl : s.lights = init ++ [light]) :
    s.color_at ray point_hit object_hit =
      some
        (max 0 ((object_hit.normal_at point_hit).dot
              (light.position - point_hit)) •
            object_hit.material.diffuse • object_hit.material.color +
          max 0 ((object_hit.normal_at point_hit).dot
                ((light.position - point_hit + (s.camera - point_hit)).normalize)) ^
              object_hit.material.specular_k •
            object_hit.material.specular • light.color) := by
  unfold Scene.color_at
  rw [hl, List.foldl_append]
  simp only [List.foldl_cons, List.foldl_nil]
  rfl

/-- C2 amended witness: the single-light counterexample scene, where the
formula evaluates to `Color(4,1,1)`. -/
theorem color_at_per_light_formula_witness :
    Scene.color_at ⟨⟨0, 0, 2⟩, [testSphere], [⟨⟨0, 0, 3⟩, ⟨1, 1, 1⟩⟩]⟩
        testRay ⟨0, 0, 0⟩ testSphere =
      some
        (max 0 ((testSphere.normal_at ⟨0, 0, 0⟩).dot
              ((⟨0, 0, 3⟩ : Vector) - ⟨0, 0, 0⟩)) •
            testSphere.material.diffuse • testSphere.material.color +
          max 0 ((testSphere.normal_at ⟨0, 0, 0⟩).dot
                (((⟨0, 0, 3⟩ : Vector) - ⟨0, 0, 0⟩ +
                  ((⟨0, 0, 2⟩ : Vector) - ⟨0, 0, 0⟩)).normalize)) ^
              testSphere.material.specular_k •
            testSphere.material.specular • (⟨1, 1, 1⟩ : Color)) :=
  color_at_per_light_formula ⟨⟨0, 0, 2⟩, [testSphere], [⟨⟨0, 0, 3⟩, ⟨1, 1, 1⟩⟩]⟩
    testRay ⟨0, 0, 0⟩ testSphere [] ⟨⟨0, 0, 3⟩, ⟨1, 1, 1⟩⟩ rfl

/-- Helper: a Python index fails exactly when it lies outside `[-n, n)`. -/
theorem pyIndex_eq_none_iff (n : ℕ) (i : ℤ) :
    pyIndex n i = none ↔ i < -(n : ℤ) ∨ (n : ℤ) ≤ i := by
  unfold pyIndex
  split_ifs with h1 h2 <;> simp <;> omega

/-- Helper: a successful Python index resolves below the length. -/
theorem pyIndex_lt {n : ℕ} {i : ℤ} {k : ℕ} (h : pyIndex n i = some k) :
    k < n := by
  unfold pyIndex at h
  split_ifs at h with h1 h2 <;> simp at h <;> omega

/-- Helper: a successful Python index means the raw index was in `[-n, n)`. -/
theorem pyIndex_isSome_range {n : ℕ} {i : ℤ} {k : ℕ}
    (h : pyIndex n i = some k) : -(n : ℤ) ≤ i ∧ i < (n : ℤ) := by
  unfold pyIndex at h
  split_ifs at h with h1 h2 <;> simp at h <;> omega

/-- C8 counterexample: on a fresh 2x2 image, `set_pixel(-1, 0, red)` does
not fault: Python's negative indexing wraps, and the write lands silently
in row 0, column 1. -/
theorem set_pixel_negative_index_writes :
    (Image.init 2 2).set_pixel (-1) 0 ⟨1, 0, 0⟩ =
        some ⟨2, 2, [[none, some ⟨1, 0, 0⟩], [none, none]]⟩ ∧
      (Image.init 2 2).set_pixel (-1) 0 ⟨1, 0, 0⟩ ≠ none := by
  have h : (Image.init 2 2).set_pixel (-1) 0 ⟨1, 0, 0⟩ =
      some ⟨2, 2, [[none, some ⟨1, 0, 0⟩], [none, none]]⟩ := by
    simp only [Image.init, Image.set_pixel, pyIndex, listSet]
    norm_num [List.replicate]
  exact ⟨h, by rw [h]; exact Option.some_ne_none _⟩

/-- C8 amended: on a well-formed image, `set_pixel(x, y, color)` faults
exactly when an index lies outside Python's wrapped range, that is when
`x < -width`, `x >= width`, `y < -height` or `y >= height`; for negative
indices still within `[-width, 0)` or `[-height, 0)` it silently writes to
the wrapped cell instead of faulting. -/
theorem set_pixel_faults_iff_outside_wrapped_range (img : Image) (x y : ℤ)
    (color : Color)
    (hrows : img.pixels.length = img.height)
    (hcols : ∀ row ∈ img.pixels, row.length = img.width) :
    img.set_pixel x y color = none ↔
      y < -(img.height : ℤ) ∨ (img.height : ℤ) ≤ y ∨
        x < -(img.width : ℤ) ∨ (img.width : ℤ) ≤ x := by
  unfold Image.set_pixel
  cases hy : pyIndex img.pixels.length y with
  | none =>
    rw [pyIndex_eq_none_iff, hrows] at hy
    simp only [true_iff]
    tauto
  | some yi =>
    have hyrange := pyIndex_isSome_range hy
    rw [hrows] at hyrange
    have hyi : yi < img.pixels.length := pyIndex_lt hy
    dsimp only
    rw [List.get?_eq_get hyi]
    dsimp only
    have hrowlen : (img.pixels.get ⟨yi, hyi⟩).length = img.width :=
      hcols _ (List.get_mem img.pixels yi hyi)
    cases hx : pyIndex (img.pixels.get ⟨yi, hyi⟩).length x with
    | none =>
      rw [pyIndex_eq_none_iff, hrowlen] at hx
      simp only [true_iff]
      tauto
    | some xi =>
      have hxrange := pyIndex_isSome_range hx
      rw [hrowlen] at hxrange
      simp only [reduceCtorEq, false_iff]
      push_neg
      omega

/-- C8 witness: on a fresh 2x2 image the write at `(2, 0)` faults, `2`
being just past the right edge. -/
theorem set_pixel_faults_iff_outside_wrapped_range_witness :
    (Image.init 2 2).set_pixel 2 0 ⟨1, 0, 0⟩ = none ↔
      (0 : ℤ) < -((Image.init 2 2).height : ℤ) ∨
        ((Image.init 2 2).height : ℤ) ≤ 0 ∨
        (2 : ℤ) < -((Image.init 2 2).width : ℤ) ∨
        ((Image.init 2 2).width : ℤ) ≤ 2 :=
  set_pixel_faults_iff_outside_wrapped_range (Image.init 2 2) 2 0 ⟨1, 0, 0⟩
    rfl (by intro row hrow
            simp only [Image.init, List.mem_replicate] at hrow
            rw [hrow.2]
            rfl)

/-- Model device for C4: the ray's hit list, in scene insertion order, of
`(t, object)` pairs for every object the ray intersects. -/
def hits (objects : List Sphere) (ray : Ray) : List (ℝ × Sphere) :=
  objects.filterMap (fun obj => (obj.intersect ray).map (fun t => (t, obj)))

/-- Model device for C4: the strict-less-than update step of the
`find_nearest` loop, on an already intersected `(t, object)` pair. -/
def minStep (acc : Option (ℝ × Sphere)) (x : ℝ × Sphere) : Option (ℝ × Sphere) :=
  match acc with
  | none => some x
  | some m => if x.1 < m.1 then some x else some m

/-- Model device for C4: the first pair of a list attaining the minimal
`t`, computed structurally (the head wins a tie against the tail). -/
def minFirst : List (ℝ × Sphere) → Option (ℝ × Sphere)
  | [] => none
  | x :: xs =>
    match minFirst xs with
    | none => some x
    | some m => if x.1 ≤ m.1 then some x else some m

/-- Helper: unfolding `hits` over a cons cell. -/
theorem hits_cons (obj : Sphere) (objs : List Sphere) (ray : Ray) :
    hits (obj :: objs) ray =
      match obj.intersect ray with
      | none => hits objs ray
      | some d => (d, obj) :: hits objs ray := by
  unfold hits
  rw [List.filterMap_cons]
  cases obj.intersect ray <;> rfl

/-- Helper: on an intersected object the loop step is the min step. -/
theorem nearestStep_eq_minStep (ray : Ray) (acc : Option (ℝ × Sphere))
    (obj : Sphere) (d : ℝ) (h : obj.intersect ray = some d) :
    Scene.nearestStep ray acc obj = minStep acc (d, obj) := by
  unfold Scene.nearestStep minStep
  rw [h]
  cases acc with
  | none => rfl
  | some m => cases m; rfl

/-- Helper: the `find_nearest` fold only sees the hit list. -/
theorem foldl_nearestStep_eq_hits (ray : Ray) :
    ∀ (objects : List Sphere) (acc : Option (ℝ × Sphere)),
      objects.foldl (Scene.nearestStep ray) acc =
        (hits objects ray).foldl minStep acc := by
  intro objects
  induction objects with
  | nil => intro acc; rfl
  | cons obj objs ih =>
    intro acc
    rw [List.foldl_cons, hits_cons]
    cases hint : obj.intersect ray with
    | none =>
      rw [show Scene.nearestStep ray acc obj = acc from by
        unfold Scene.nearestStep; rw [hint]]
      exact ih acc
    | some d =>
      rw [nearestStep_eq_minStep ray acc obj d hint]
      exact ih (minStep acc (d, obj))

/-- Helper: unfolding `minFirst` over a cons cell. -/
theorem minFirst_cons (x : ℝ × Sphere) (xs : List (ℝ × Sphere)) :
    minFirst (x :: xs) =
      match minFirst xs with
      | none => some x
      | some m => if x.1 ≤ m.1 then some x else some m := rfl

/-- Helper: `minFirst` is `none` only on the empty list. -/
theorem minFirst_eq_none_iff (xs : List (ℝ × Sphere)) :
    minFirst xs = none ↔ xs = [] := by
  cases xs with
  | nil => simp [minFirst]
  | cons x xs =>
    rw [minFirst_cons]
    cases minFirst xs with
    | none => simp
    | some m =>
      dsimp only
      split_ifs <;> simp

/-- Helper: the minimum kept by `minFirst` is at most the head's key. -/
theorem minFirst_le_head (x : ℝ × Sphere) (xs : List (ℝ × Sphere))
    (v : ℝ × Sphere) (h : minFirst (x :: xs) = some v) : v.1 ≤ x.1 := by
  rw [minFirst_cons] at h
  cases hm : minFirst xs with
  | none =>
    rw [hm] at h
    dsimp only at h
    injection h with h
    rw [← h]
  | some m =>
    rw [hm] at h
    dsimp only at h
    by_cases hxm : x.1 ≤ m.1
    · rw [if_pos hxm] at h
      injection h with h
      rw [← h]
    · rw [if_neg hxm] at h
      injection h with h
      rw [← h]
      exact (lt_of_not_le hxm).le

/-- Helper: the min fold started from a head element is `minFirst`. -/
theorem foldl_minStep_some (xs : List (ℝ × Sphere)) :
    ∀ a : ℝ × Sphere, xs.foldl minStep (some a) = minFirst (a :: xs) := by
  induction xs with
  | nil => intro a; rfl
  | cons x xs ih =>
    intro a
    rw [List.foldl_cons]
    have hstep : minStep (some a) x = some (if x.1 < a.1 then x else a) := by
      unfold minStep
      dsimp only
      split_ifs <;> rfl
    rw [hstep, ih (if x.1 < a.1 then x else a)]
    by_cases hxa : x.1 < a.1
    · rw [if_pos hxa, minFirst_cons a (x :: xs)]
      cases hv : minFirst (x :: xs) with
      | none =>
        exact absurd ((minFirst_eq_none_iff _).mp hv) (by simp)
      | some v =>
        dsimp only
        rw [if_neg (by
          have := minFirst_le_head x xs v hv
          push_neg
          linarith)]
    · rw [if_neg hxa]
      have haxle : a.1 ≤ x.1 := le_of_not_lt hxa
      rw [minFirst_cons a (x :: xs), minFirst_cons a xs, minFirst_cons x xs]
      cases hm : minFirst xs with
      | none =>
        dsimp only
        rw [if_pos haxle]
      | some m =>
        dsimp only
        by_cases hxm : x.1 ≤ m.1
        · rw [if_pos hxm, if_pos (le_trans haxle hxm)]
          dsimp only
          rw [if_pos haxle]
        · rw [if_neg hxm]

/-- Helper: the min fold from an empty accumulator is `minFirst`. -/
theorem foldl_minStep_none (xs : List (ℝ × Sphere)) :
    xs.foldl minStep none = minFirst xs := by
  cases xs with
  | nil => rfl
  | cons x xs => exact foldl_minStep_some xs x

/-- Helper: `minFirst` returns the first element attaining the minimum:
it splits the list with every earlier element strictly larger and every
element at least as large. -/
theorem minFirst_spec (xs : List (ℝ × Sphere)) :
    ∀ m, minFirst xs = some m →
      ∃ pre post,
        xs = pre ++ m :: post ∧
          (∀ x ∈ pre, m.1 < x.1) ∧ (∀ x ∈ xs, m.1 ≤ x.1) := by
  induction xs with
  | nil => intro m h; exact absurd h (by simp [minFirst])
  | cons x xs ih =>
    intro m h
    rw [minFirst_cons] at h
    cases hm : minFirst xs with
    | none =>
      rw [hm] at h
      dsimp only at h
      have hx : m = x := by injection h with h; exact h.symm
      have hnil : xs = [] := (minFirst_eq_none_iff xs).mp hm
      subst hx hnil
      exact ⟨[], [], rfl, by simp, by simp⟩
    | some m' =>
      rw [hm] at h
      dsimp only at h
      obtain ⟨pre', post', hsplit, hpre', hall'⟩ := ih m' hm
      by_cases hle : x.1 ≤ m'.1
      · rw [if_pos hle] at h
        have hx : m = x := by injection h with h; exact h.symm
        subst hx
        refine ⟨[], xs, rfl, by simp, ?_⟩
        intro y hy
        rcases List.mem_cons.mp hy with hy | hy
        · rw [hy]
        · exact le_trans hle (hall' y hy)
      · rw [if_neg hle] at h
        have hx : m = m' := by injection h with h; exact h.symm
        subst hx
        refine ⟨x :: pre', post', by rw [hsplit, List.cons_append], ?_, ?_⟩
        · intro y hy
          rcases List.mem_cons.mp hy with hy | hy
          · rw [hy]; exact lt_of_not_le hle
          · exact hpre' y hy
        · intro y hy
          rcases List.mem_cons.mp hy with hy | hy
          · rw [hy]; exact le_of_lt (lt_of_not_le hle)
          · exact hall' y hy

/-- C4: `find_nearest` returns `none` exactly when no object intersects
the ray; otherwise it returns `ray.point_at t` together with the object
whose intersection parameter `t` is minimal over the hit list, and on an
exact tie the object occurring earlier in insertion order wins (every pair
before the returned one in the hit list has a strictly larger `t`, every
pair at all has `t` at least as large). -/
theorem find_nearest_returns_first_minimal_hit (s : Scene) (ray : Ray) :
    (s.find_nearest ray = none ↔ hits s.objects ray = []) ∧
      (∀ (point_hit : Point) (object_hit : Sphere),
        s.find_nearest ray = some (point_hit, object_hit) →
          ∃ t pre post,
            point_hit = ray.point_at t ∧
              hits s.objects ray = pre ++ (t, object_hit) :: post ∧
              (∀ x ∈ pre, t < x.1) ∧
              (∀ x ∈ hits s.objects ray, t ≤ x.1)) := by
  have hfold : s.objects.foldl (Scene.nearestStep ray) none =
      minFirst (hits s.objects ray) := by
    rw [foldl_nearestStep_eq_hits, foldl_minStep_none]
  constructor
  · unfold Scene.find_nearest
    rw [hfold]
    rw [Option.map_eq_none']
    exact minFirst_eq_none_iff _
  · intro point_hit object_hit h
    unfold Scene.find_nearest at h
    rw [hfold] at h
    rcases Option.map_eq_some'.mp h with ⟨⟨t, obj⟩, hmin, heq⟩
    rw [Prod.mk.injEq] at heq
    obtain ⟨h1, h2⟩ := heq
    subst h2
    obtain ⟨pre, post, hsplit, hpre, hall⟩ := minFirst_spec _ _ hmin
    exact ⟨t, pre, post, h1.symm, hsplit, hpre, hall⟩

/-- Test fixture: a sphere of radius 3 centered at `(0,0,-3)`, which the
test ray also hits at `t = 2`, tying with `testSphere`. -/
def bigSphere : Sphere := ⟨⟨0, 0, -3⟩, 3, ⟨⟨0, 0, 1⟩, 0.05, 1, 1, 50⟩⟩

/-- Helper: `bigSphere` is hit by the test ray at `t = 2` as well. -/
theorem bigSphere_intersect_eval : bigSphere.intersect testRay = some 2 := by
  rw [intersect_eval bigSphere testRay 1 (-10) 16
    (by norm_num [testRay, Vector.squared_norm, Vector.dot])
    (by norm_num [bigSphere, testRay, Vector.sub_def, Vector.dot])
    (by norm_num [bigSphere, testRay, Vector.sub_def, Vector.squared_norm,
      Vector.dot])]
  rw [show (-10 : ℝ) ^ 2 - 4 * 1 * 16 = 6 ^ 2 by norm_num,
    sqrt_of_sq (by norm_num : (0:ℝ) ≤ 6) rfl]
  norm_num

/-- Helper: on the tied two-sphere scene, `find_nearest` keeps the first
sphere: the strict `dist < dist_min` comparison rejects the equal distance
of the later sphere. -/
theorem find_nearest_tie_eval :
    Scene.find_nearest ⟨⟨0, 0, 2⟩, [testSphere, bigSphere], []⟩ testRay =
      some (testRay.point_at 2, testSphere) := by
  unfold Scene.find_nearest
  simp only [List.foldl_cons, List.foldl_nil, Scene.nearestStep,
    testSphere_intersect_eval, bigSphere_intersect_eval, lt_self_iff_false,
    if_false]
  rfl

/-- C4 witness: two overlapping spheres tied at `t = 2` along the test ray;
the characterization is discharged at the first sphere, in insertion order. -/
theorem find_nearest_returns_first_minimal_hit_witness :
    ∃ t pre post,
      testRay.point_at 2 = testRay.point_at t ∧
        hits [testSphere, bigSphere] testRay = pre ++ (t, testSphere) :: post ∧
        (∀ x ∈ pre, t < x.1) ∧
        (∀ x ∈ hits [testSphere, bigSphere] testRay, t ≤ x.1) :=
  (find_nearest_returns_first_minimal_hit
      ⟨⟨0, 0, 2⟩, [testSphere, bigSphere], []⟩ testRay).2
    (testRay.point_at 2) testSphere find_nearest_tie_eval

/-- Model device for C5: the pixel coordinates `render` writes, row by row
in loop order. -/
def renderWrites (width height : ℕ) : List (ℕ × ℕ) :=
  (List.range height).flatMap (fun j => (List.range width).map (fun i => (i, j)))

/-- Model device for C5: the image grid has exactly `height` rows of
`width` cells each. -/
def wellFormed (img : Image) (width height : ℕ) : Prop :=
  img.pixels.length = height ∧ ∀ row ∈ img.pixels, row.length = width

/-- Model device for C5: the cell at column `i` of row `j` exists and holds
a color (is not the initial `None`). -/
def cellDefined (img : Image) (i j : ℕ) : Prop :=
  ∃ row, img.pixels[j]? = some row ∧ ∃ c, row[i]? = some (some c)

/-- Model device for C5: one pixel write of the render loop, `trace` first
and `set_pixel` second, with a fault in either aborting the loop. -/
def writeStep (f : ℕ × ℕ → Option Color) (acc : Option Image) (p : ℕ × ℕ) :
    Option Image :=
  acc.bind (fun img =>
    (f p).bind (fun c => img.set_pixel (p.1 : ℤ) (p.2 : ℤ) c))

/-- Model device for C5: the camera ray of pixel `(i, j)`, with the same
image-plane arithmetic as `render`. -/
def pixelRay (s : Scene) (width height : ℕ) (i j : ℕ) : Ray :=
  let aspect : ℝ := (width : ℝ) / (height : ℝ)
  let x0 : ℝ := -1
  let x1 : ℝ := 1
  let x_step := (x1 - x0) / ((width : ℝ) - 1)
  let y0 : ℝ := -1 / aspect
  let y1 : ℝ := 1 / aspect
  let y_step := (y1 - y0) / ((height : ℝ) - 1)
  Ray.from_points s.camera ⟨x0 + (i : ℝ) * x_step, y0 + (j : ℝ) * y_step, 0⟩

/-- Helper: a Python index given as a natural number below the length
resolves to itself. -/
theorem pyIndex_natCast {n j : ℕ} (h : j < n) : pyIndex n (j : ℤ) = some j := by
  unfold pyIndex
  rw [if_pos (by constructor <;> omega)]
  congr 1

/-- Helper: `set_pixel` at in-bounds natural coordinates on a well-formed
image succeeds and replaces exactly one cell of one row. -/
theorem set_pixel_nat (img : Image) (w h i j : ℕ) (c : Color)
    (hwf : wellFormed img w h) (hi : i < w) (hj : j < h) :
    ∃ hjl : j < img.pixels.length,
      img.set_pixel (i : ℤ) (j : ℤ) c =
        some ⟨img.width, img.height,
          img.pixels.set j ((img.pixels.get ⟨j, hjl⟩).set i (some c))⟩ := by
  have hjl : j < img.pixels.length := by rw [hwf.1]; exact hj
  refine ⟨hjl, ?_⟩
  unfold Image.set_pixel
  rw [pyIndex_natCast hjl]
  dsimp only
  rw [List.get?_eq_get hjl]
  dsimp only
  have hrow : (img.pixels.get ⟨j, hjl⟩).length = w :=
    hwf.2 _ (List.get_mem img.pixels j hjl)
  rw [pyIndex_natCast (by rw [hrow]; exact hi)]
  dsimp only
  rfl

/-- Helper: an in-bounds `set_pixel` preserves well-formedness. -/
theorem wellFormed_set_pixel {img img' : Image} {w h i j : ℕ} {c : Color}
    (hwf : wellFormed img w h) (hi : i < w) (hj : j < h)
    (hset : img.set_pixel (i : ℤ) (j : ℤ) c = some img') :
    wellFormed img' w h := by
  obtain ⟨hjl, heq⟩ := set_pixel_nat img w h i j c hwf hi hj
  rw [heq] at hset
  injection hset with hset
  rw [← hset]
  constructor
  · rw [List.length_set]
    exact hwf.1
  · intro row hrow
    rcases List.mem_or_eq_of_mem_set hrow with hmem | hnew
    · exact hwf.2 row hmem
    · rw [hnew, List.length_set]
      exact hwf.2 _ (List.get_mem img.pixels j hjl)

/-- Helper: an in-bounds `set_pixel` defines its own cell. -/
theorem cellDefined_set_pixel_self {img img' : Image} {w h i j : ℕ} {c : Color}
    (hwf : wellFormed img w h) (hi : i < w) (hj : j < h)
    (hset : img.set_pixel (i : ℤ) (j : ℤ) c = some img') :
    cellDefined img' i j := by
  obtain ⟨hjl, heq⟩ := set_pixel_nat img w h i j c hwf hi hj
  rw [heq] at hset
  injection hset with hset
  rw [← hset]
  refine ⟨(img.pixels.get ⟨j, hjl⟩).set i (some c),
    List.getElem?_set_eq_of_lt _ hjl, c, ?_⟩
  have hrow : (img.pixels.get ⟨j, hjl⟩).length = w :=
    hwf.2 _ (List.get_mem img.pixels j hjl)
  exact List.getElem?_set_eq_of_lt _ (by rw [hrow]; exact hi)

/-- Helper: an in-bounds `set_pixel` keeps every already defined cell
defined (it writes a color, never `None`). -/
theorem cellDefined_set_pixel_preserve {img img' : Image} {w h i j : ℕ}
    {c : Color} (hwf : wellFormed img w h) (hi : i < w) (hj : j < h)
    (hset : img.set_pixel (i : ℤ) (j : ℤ) c = some img')
    {a b : ℕ} (hd : cellDefined img a b) : cellDefined img' a b := by
  obtain ⟨hjl, heq⟩ := set_pixel_nat img w h i j c hwf hi hj
  rw [heq] at hset
  injection hset with hset
  rw [← hset]
  obtain ⟨row0, hrow0, c0, hc0⟩ := hd
  by_cases hbj : b = j
  · subst hbj
    have hrow_eq : img.pixels.get ⟨b, hjl⟩ = row0 := by
      have := List.getElem?_eq_getElem hjl
      rw [hrow0] at this
      injection this with this
      exact this.symm
    refine ⟨row0.set i (some c), ?_, ?_⟩
    · rw [List.getElem?_set_eq_of_lt _ hjl, hrow_eq]
    · have hrowlen : row0.length = w := by
        rw [← hrow_eq]
        exact hwf.2 _ (List.get_mem img.pixels b hjl)
      by_cases hai : a = i
      · subst hai
        exact ⟨c, List.getElem?_set_eq_of_lt _ (by rw [hrowlen]; exact hi)⟩
      · exact ⟨c0, by
          rw [List.getElem?_set_ne (fun hh => hai hh.symm)]
          exact hc0⟩
  · refine ⟨row0, ?_, c0, hc0⟩
    show (img.pixels.set j ((img.pixels.get ⟨j, hjl⟩).set i (some c)))[b]? = some row0
    rw [List.getElem?_set_ne (fun hh => hbj hh.symm)]
    exact hrow0

/-- Helper: a fold whose step maps `none` to `none` stays `none`. -/
theorem foldl_step_none {β : Type} (step : Option Image → β → Option Image)
    (hstep : ∀ b, step none b = none) (l : List β) :
    l.foldl step none = none := by
  induction l with
  | nil => rfl
  | cons x xs ih =>
    rw [List.foldl_cons, hstep]
    exact ih

/-- Helper: running a list of in-bounds pixel writes from a well-formed
image keeps it well-formed, keeps every defined cell defined, and defines
the cell of every write in the list. -/
theorem writeFold_spec (f : ℕ × ℕ → Option Color) (w h : ℕ) :
    ∀ (ws : List (ℕ × ℕ)) (img imgF : Image),
      (∀ p ∈ ws, p.1 < w ∧ p.2 < h) →
      wellFormed img w h →
      ws.foldl (writeStep f) (some img) = some imgF →
      wellFormed imgF w h ∧
        (∀ i j, cellDefined img i j → cellDefined imgF i j) ∧
        (∀ p ∈ ws, cellDefined imgF p.1 p.2) := by
  intro ws
  induction ws with
  | nil =>
    intro img imgF _ hwf hfold
    rw [List.foldl_nil] at hfold
    injection hfold with hfold
    subst hfold
    exact ⟨hwf, fun _ _ hd => hd, by simp⟩
  | cons p ws ih =>
    intro img imgF hbnd hwf hfold
    rw [List.foldl_cons] at hfold
    have hp := hbnd p (List.mem_cons_self p ws)
    cases hf : f p with
    | none =>
      rw [show writeStep f (some img) p = none from by
            unfold writeStep
            rw [Option.some_bind, hf]
            rfl,
          foldl_step_none _ (fun b => rfl)] at hfold
      exact absurd hfold (by simp)
    | some c =>
      cases hset : img.set_pixel (p.1 : ℤ) (p.2 : ℤ) c with
      | none =>
        obtain ⟨hjl, heq⟩ := set_pixel_nat img w h p.1 p.2 c hwf hp.1 hp.2
        rw [heq] at hset
        exact absurd hset (by simp)
      | some img₁ =>
        rw [show writeStep f (some img) p = some img₁ from by
              unfold writeStep
              rw [Option.some_bind, hf, Option.some_bind]
              exact hset] at hfold
        have hwf₁ : wellFormed img₁ w h :=
          wellFormed_set_pixel hwf hp.1 hp.2 hset
        obtain ⟨hwfF, hmono, hcov⟩ :=
          ih img₁ imgF (fun q hq => hbnd q (List.mem_cons_of_mem p hq)) hwf₁ hfold
        refine ⟨hwfF, ?_, ?_⟩
        · intro i j hd
          exact hmono i j (cellDefined_set_pixel_preserve hwf hp.1 hp.2 hset hd)
        · intro q hq
          rcases List.mem_cons.mp hq with hq | hq
          · rw [hq]
            exact hmono p.1 p.2
              (cellDefined_set_pixel_self hwf hp.1 hp.2 hset)
          · exact hcov q hq

/-- Helper: membership in the render write list is exactly in-bounds. -/
theorem mem_renderWrites {w h i j : ℕ} :
    (i, j) ∈ renderWrites w h ↔ i < w ∧ j < h := by
  unfold renderWrites
  simp only [List.mem_flatMap, List.mem_map, List.mem_range, Prod.mk.injEq]
  constructor
  · rintro ⟨j', hj', i', hi', hii, hjj⟩
    subst hii hjj
    exact ⟨hi', hj'⟩
  · rintro ⟨hi, hj⟩
    exact ⟨j, hj, i, hi, rfl, rfl⟩

/-- Helper: the render write list has no duplicate coordinates. -/
theorem nodup_renderWrites (w h : ℕ) : (renderWrites w h).Nodup := by
  unfold renderWrites
  rw [List.nodup_flatMap]
  constructor
  · intro j _
    exact (List.nodup_range w).map (fun a b hab => congrArg Prod.fst hab)
  · have hne : List.Pairwise (fun j1 j2 => j1 ≠ j2) (List.range h) :=
      List.nodup_range h
    refine hne.imp ?_
    intro j1 j2 hj12 p hp1 hp2
    simp only [List.mem_map] at hp1 hp2
    obtain ⟨i1, _, hpeq1⟩ := hp1
    obtain ⟨i2, _, hpeq2⟩ := hp2
    exact hj12 ((congrArg Prod.snd hpeq1).trans (congrArg Prod.snd hpeq2).symm)

/-- Helper: every in-bounds coordinate occurs exactly once in the render
write list. -/
theorem count_renderWrites {w h i j : ℕ} (hi : i < w) (hj : j < h) :
    @List.count (ℕ × ℕ) instBEqOfDecidableEq (i, j) (renderWrites w h) = 1 :=
  List.count_eq_one_of_mem (nodup_renderWrites w h)
    (mem_renderWrites.mpr ⟨hi, hj⟩)

/-- Helper: a fold over a flat map is the nested fold. -/
theorem foldl_flatMap_eq {α β γ : Type} (l : List α) (g : α → List β)
    (F : γ → β → γ) (init : γ) :
    (l.flatMap g).foldl F init =
      l.foldl (fun acc a => (g a).foldl F acc) init := by
  induction l generalizing init with
  | nil => rfl
  | cons x xs ih =>
    rw [List.flatMap_cons, List.foldl_append, List.foldl_cons, ih]

/-- Helper: the fresh image of `Image.init` is well-formed. -/
theorem wellFormed_init (w h : ℕ) : wellFormed (Image.init w h) w h := by
  constructor
  · exact List.length_replicate h _
  · intro row hrow
    rw [(List.mem_replicate.mp hrow).2]
    exact List.length_replicate w _

/-- Helper: past its three division guards, `render` is exactly the fold of
the per-pixel writes over `renderWrites`, with the ray of pixel `(i, j)`
given by `pixelRay`. -/
theorem render_eq_writeFold (s : Scene) (width height : ℕ)
    (h0 : height ≠ 0) (h1 : width ≠ 1) (h2 : height ≠ 1) :
    s.render width height =
      (renderWrites width height).foldl
        (writeStep (fun p => s.trace (pixelRay s width height p.1 p.2)))
        (some (Image.init width height)) := by
  unfold Scene.render
  rw [if_neg h0, if_neg h1, if_neg h2]
  dsimp only
  unfold renderWrites
  rw [foldl_flatMap_eq]
  congr 1
  funext acc j
  rw [List.foldl_map]
  cases acc with
  | none =>
    rw [Option.none_bind]
    exact (foldl_step_none _ (fun b => rfl) (List.range width)).symm
  | some image =>
    rw [Option.some_bind]
    rfl

/-- C5 counterexample: the claim quantifies over every positive width and
height, but `render(1, 2)` raises `ZeroDivisionError` at
`x_step = (x1-x0) / (width-1)` instead of returning an image. -/
theorem render_width_one_raises :
    0 < 1 ∧ 0 < 2 ∧ Scene.render ⟨⟨0, 0, 2⟩, [], []⟩ 1 2 = none :=
  ⟨by norm_num, by norm_num, rfl⟩

/-- C5 amended: whenever `render(width, height)` does return an image (it
raises when width or height is 1, when height is 0, or when shading
faults), that image has exactly `height` rows of `width` cells, every
in-bounds cell holds a defined color (no initial `None` remains), and the
write trace visits every in-bounds coordinate exactly once. -/
theorem render_defines_every_pixel (s : Scene) (width height : ℕ)
    (img : Image) (h : s.render width height = some img) :
    wellFormed img width height ∧
      (∀ i j, i < width → j < height → cellDefined img i j) ∧
      (∀ i j, i < width → j < height →
        @List.count (ℕ × ℕ) instBEqOfDecidableEq (i, j)
          (renderWrites width height) = 1) := by
  by_cases h0 : height = 0
  · unfold Scene.render at h
    rw [if_pos h0] at h
    exact absurd h (by simp)
  by_cases h1 : width = 1
  · unfold Scene.render at h
    rw [if_neg h0, if_pos h1] at h
    exact absurd h (by simp)
  by_cases h2 : height = 1
  · unfold Scene.render at h
    rw [if_neg h0, if_neg h1, if_pos h2] at h
    exact absurd h (by simp)
  rw [render_eq_writeFold s width height h0 h1 h2] at h
  obtain ⟨hwfF, _, hcov⟩ :=
    writeFold_spec _ width height (renderWrites width height)
      (Image.init width height) img
      (fun p hp => by
        obtain ⟨i, j⟩ := p
        exact mem_renderWrites.mp hp)
      (wellFormed_init width height) h
  exact ⟨hwfF,
    fun i j hi hj => hcov (i, j) (mem_renderWrites.mpr ⟨hi, hj⟩),
    fun i j hi hj => count_renderWrites hi hj⟩

/-- Test fixture: an empty scene with the camera at the origin. -/
def emptyScene : Scene := ⟨⟨0, 0, 0⟩, [], []⟩

/-- Test fixture: the image `render` produces on the empty scene at 2x2:
four background-gradient pixels. -/
def img22 : Image :=
  ⟨2, 2,
    [[some (Ray.bg_color (pixelRay emptyScene 2 2 0 0)),
      some (Ray.bg_color (pixelRay emptyScene 2 2 1 0))],
     [some (Ray.bg_color (pixelRay emptyScene 2 2 0 1)),
      some (Ray.bg_color (pixelRay emptyScene 2 2 1 1))]]⟩

/-- Helper: concrete evaluation of `render` on the empty scene at 2x2. -/
theorem render_emptyScene_eval : Scene.render emptyScene 2 2 = some img22 := by
  rw [render_eq_writeFold emptyScene 2 2 (by norm_num) (by norm_num)
    (by norm_num)]
  rfl

/-- C5 witness: the empty 2x2 render returns an image that is well-formed,
has every cell defined, and whose write trace hits each coordinate once. -/
theorem render_defines_every_pixel_witness :
    wellFormed img22 2 2 ∧
      (∀ i j, i < 2 → j < 2 → cellDefined img22 i j) ∧
      (∀ i j, i < 2 → j < 2 →
        @List.count (ℕ × ℕ) instBEqOfDecidableEq (i, j) (renderWrites 2 2) = 1) :=
  render_defines_every_pixel emptyScene 2 2 img22 render_emptyScene_eval

end

end Raytracer
